import Mathlib

/-!
Shallow embedding of the Backtesting-Engine core
(`backtest/engine/order.py`, `backtest/engine/portfolio.py`,
`backtest/engine/backtester.py`, `backtest/strategies/sma_crossover.py`,
`backtest/strategies/mean_reversion.py`, `backtest/metrics/performance.py`)
and proofs about it.

Modelling conventions:
* Python `float` money/price arithmetic is modelled exactly over `ℚ`.
* Python `int` share counts are modelled as `ℤ`.
* `dict[str, int]` (the positions map) is modelled as an association list
  `List (String × ℤ)` with unique-key update semantics (`pset`) and key
  removal (`perase`), mirroring `d.get(k, 0)`, `d[k] = v`, `del d[k]`.
* `pandas` rolling windows of width `w` ending at the last row are modelled
  by `lastN` (the last `w` elements of the close-price list); the rolling
  standard deviation is pandas' default sample standard deviation
  (`ddof = 1`), whose square — the variance — is the rational `sampleVar`.
-/

namespace Backtest

/-- `d.get(k, 0)` on the positions dictionary. -/
def pget : List (String × ℤ) → String → ℤ
  | [], _ => 0
  | (k, v) :: rest, t => if k = t then v else pget rest t

/-- `d[k] = v` on the positions dictionary: replace the first binding of the
key, or append a new binding (dicts preserve insertion order). -/
def pset : List (String × ℤ) → String → ℤ → List (String × ℤ)
  | [], t, n => [(t, n)]
  | (k, v) :: rest, t, n =>
    if k = t then (k, n) :: rest else (k, v) :: pset rest t n

/-- `del d[k]` on the positions dictionary. -/
def perase : List (String × ℤ) → String → List (String × ℤ)
  | [], _ => []
  | (k, v) :: rest, t => if k = t then perase rest t else (k, v) :: perase rest t

/-- `k in d` on the positions dictionary. -/
def pHas : List (String × ℤ) → String → Bool
  | [], _ => false
  | (k, _) :: rest, t => if k = t then true else pHas rest t

/-- `backtest/engine/order.py`: `Order(ticker, side, quantity)`.  The side
is a string; anything other than `"BUY"`/`"SELL"` is rejected by the
portfolio. -/
structure Order where
  ticker : String
  side : String
  quantity : ℤ
  deriving DecidableEq, Repr

/-- `backtest/engine/portfolio.py`: `Portfolio(cash, positions)`.  The
equity curve is threaded separately by the backtester model. -/
structure Portfolio where
  cash : ℚ
  positions : List (String × ℤ)
  deriving DecidableEq, Repr

/-- `Portfolio.execute_order(order, price, commission_pct)`.  Returns the
`bool` result together with the portfolio after the (in Python, in-place)
mutation. -/
def Portfolio.execute_order (p : Portfolio) (o : Order) (price commission_pct : ℚ) :
    Bool × Portfolio :=
  if o.side = "BUY" then
    let cost := price * (o.quantity : ℚ) * (1 + commission_pct)
    if cost > p.cash then (false, p)
    else
      (true, { cash := p.cash - cost,
               positions := pset p.positions o.ticker (pget p.positions o.ticker + o.quantity) })
  else if o.side = "SELL" then
    let held := pget p.positions o.ticker
    if held < o.quantity then (false, p)
    else
      let ps := pset p.positions o.ticker (held - o.quantity)
      if pget ps o.ticker = 0 then
        (true, { cash := p.cash + price * (o.quantity : ℚ) * (1 - commission_pct),
                 positions := perase ps o.ticker })
      else
        (true, { cash := p.cash + price * (o.quantity : ℚ) * (1 - commission_pct),
                 positions := ps })
  else (false, p)

/-- The Portfolio data-model invariant: cash is never negative and every
entry of the positions map has a strictly positive share count
(zero-count entries pruned). -/
def PortfolioWF (p : Portfolio) : Prop :=
  0 ≤ p.cash ∧ ∀ kv ∈ p.positions, 0 < kv.2

/-- `prices[ticker]` for the price map handed to `get_equity`.  The
backtester always supplies a price for every held ticker, so the `0`
default is never read along the modelled paths. -/
def qget : List (String × ℚ) → String → ℚ
  | [], _ => 0
  | (k, v) :: rest, t => if k = t then v else qget rest t

/-- `Portfolio.get_equity(prices)`: cash plus market value of all
positions. -/
def Portfolio.get_equity (p : Portfolio) (prices : List (String × ℚ)) : ℚ :=
  p.cash + (p.positions.map (fun kv => (kv.2 : ℚ) * qget prices kv.1)).sum

/-- One row of the price-history table.  Only the date index and the
`Close` column are read by the engine, the strategies and the metrics. -/
structure Bar where
  date : ℕ
  close : ℚ
  deriving DecidableEq, Repr

/-- One entry of the backtester's `trade_log`. -/
structure Trade where
  side : String
  price : ℚ
  quantity : ℤ
  ticker : String
  date : ℕ
  deriving DecidableEq, Repr

/-- `data.at[today, "Close"]` for row index `i`. -/
def barClose (data : List Bar) (i : ℕ) : ℚ :=
  ((data.get? i).map Bar.close).getD 0

/-- `data.index[i]`. -/
def barDate (data : List Bar) (i : ℕ) : ℕ :=
  ((data.get? i).map Bar.date).getD 0

/-- The inner `for order in orders` loop of `run_backtest`: execute each
order at today's close; on acceptance increment `total_trades` and append
a trade record. -/
def processOrders (p : Portfolio) (orders : List Order) (close commission_pct : ℚ)
    (date : ℕ) (total_trades : ℕ) (trade_log : List Trade) :
    Portfolio × ℕ × List Trade :=
  match orders with
  | [] => (p, total_trades, trade_log)
  | o :: rest =>
    let r := p.execute_order o close commission_pct
    if r.1 then
      processOrders r.2 rest close commission_pct date (total_trades + 1)
        (trade_log ++ [⟨o.side, close, o.quantity, o.ticker, date⟩])
    else
      processOrders r.2 rest close commission_pct date total_trades trade_log

/-- The full state threaded through `run_backtest`'s daily loop.  `calls`
instruments the loop by recording every history view handed to the
strategy's `on_data`. -/
structure RunState (σ : Type) where
  portfolio : Portfolio
  equity_curve : List (ℕ × ℚ)
  total_trades : ℕ
  trade_log : List Trade
  calls : List (List Bar)
  strat : σ
  deriving Repr

/-- The daily loop of `run_backtest`, iterating over the day indices.  On
day `i`: build `history = data.iloc[: i + 1]`, call the strategy, execute
the returned orders at day `i`'s close, then price all held positions at
that close and append today's equity (`Portfolio.log_equity`). -/
def runDays {σ : Type} (step : σ → List Bar → List Order × σ)
    (commission_pct : ℚ) (data : List Bar) :
    List ℕ → RunState σ → RunState σ
  | [], st => st
  | i :: rest, st =>
    let history := data.take (i + 1)
    let os := step st.strat history
    let close := barClose data i
    let pr := processOrders st.portfolio os.1 close commission_pct (barDate data i)
        st.total_trades st.trade_log
    let prices := pr.1.positions.map (fun kv => (kv.1, close))
    runDays step commission_pct data rest
      { portfolio := pr.1,
        equity_curve := st.equity_curve ++ [(barDate data i, pr.1.get_equity prices)],
        total_trades := pr.2.1,
        trade_log := pr.2.2,
        calls := st.calls ++ [history],
        strat := os.2 }

/-- `run_backtest(strategy, data, starting_capital, commission_pct)`.
The strategy is a step function from private strategy state and a history
view to the emitted orders and the updated state. -/
def runBacktest {σ : Type} (step : σ → List Bar → List Order × σ) (s0 : σ)
    (data : List Bar) (starting_capital commission_pct : ℚ) : RunState σ :=
  runDays step commission_pct data (List.range data.length)
    { portfolio := ⟨starting_capital, []⟩, equity_curve := [], total_trades := 0,
      trade_log := [], calls := [], strat := s0 }

/-- The strategy-state component of the daily loop in isolation: the fold
of the strategy's step over the successive history views.  The portfolio
never feeds into it. -/
def stratFold {σ : Type} (step : σ → List Bar → List Order × σ) (data : List Bar) :
    List ℕ → σ → σ
  | [], s => s
  | i :: rest, s => stratFold step data rest (step s (data.take (i + 1))).2

/-! ### Rolling-window statistics and the two concrete strategies -/

/-- The last `w` elements of a list: the rolling window of width `w`
ending at the last row. -/
def lastN (l : List ℚ) (w : ℕ) : List ℚ := l.drop (l.length - w)

/-- `closes.rolling(w).mean().iloc[-1]`. -/
def rmean (l : List ℚ) (w : ℕ) : ℚ := (lastN l w).sum / (w : ℚ)

/-- The square of `closes.rolling(w).std().iloc[-1]`: pandas' default is
the sample variance (`ddof = 1`, divisor `w - 1`). -/
def sampleVar (l : List ℚ) (w : ℕ) : ℚ :=
  ((lastN l w).map (fun x => (x - rmean l w) ^ 2)).sum / ((w : ℚ) - 1)

/-- The population variance (divisor `w`) of the last `w` elements; the
square of the standard deviation named by the specification's description
of the mean-reversion z-score.  Used only to compare the specification's
formula with the code's. -/
def popVar (l : List ℚ) (w : ℕ) : ℚ :=
  ((lastN l w).map (fun x => (x - rmean l w) ^ 2)).sum / (w : ℚ)

/-- Exact rational decision of `d / √v < e` (used for `z < entry_z`, where
`v` is the variance, so `√v` the standard deviation). -/
def divSqrtLt (d v e : ℚ) : Bool :=
  if 0 ≤ e then decide (d < 0) || decide (d ^ 2 < e ^ 2 * v)
  else decide (d < 0) && decide (e ^ 2 * v < d ^ 2)

/-- Exact rational decision of `d / √v > e` (used for `z > exit_z`). -/
def divSqrtGt (d v e : ℚ) : Bool :=
  if e < 0 then decide (0 ≤ d) || decide (d ^ 2 < e ^ 2 * v)
  else decide (0 < d) && decide (e ^ 2 * v < d ^ 2)

/-- The z-score the code computes: `(today's close − rolling mean)` over
the **sample** standard deviation `√sampleVar` (pandas `rolling(w).std()`,
`ddof = 1`). -/
noncomputable def zscore (closes : List ℚ) (w : ℕ) : ℝ :=
  ((closes.getLast?.getD 0 - rmean closes w : ℚ) : ℝ)
    / Real.sqrt ((sampleVar closes w : ℚ) : ℝ)

/-- The z-score named by the specification: the same numerator over the
**population** standard deviation `√popVar` (divisor `w`).  Used only to
compare the specification's formula with the code's. -/
noncomputable def zscorePop (closes : List ℚ) (w : ℕ) : ℝ :=
  ((closes.getLast?.getD 0 - rmean closes w : ℚ) : ℝ)
    / Real.sqrt ((popVar closes w : ℚ) : ℝ)

/-- `backtest/strategies/mean_reversion.py`: parameters plus the private
`_in_position` flag. -/
structure MeanReversion where
  ticker : String
  lookback : ℕ
  entry_z : ℚ
  exit_z : ℚ
  quantity : ℤ
  in_position : Bool
  deriving DecidableEq, Repr

/-- `MeanReversion.on_data(history)`: returns the emitted orders together
with the updated strategy state.  The comparisons `z < entry_z` and
`z > exit_z`, where `z = (close - mean) / std` and `std = √sampleVar`, are
decided exactly by `divSqrtLt` / `divSqrtGt`; `std == 0` is `sampleVar = 0`
(the variance is nonnegative for `lookback ≥ 1`). -/
def MeanReversion.on_data (s : MeanReversion) (history : List Bar) :
    List Order × MeanReversion :=
  if history.length < s.lookback then ([], s)
  else
    let closes := history.map Bar.close
    let m := rmean closes s.lookback
    let v := sampleVar closes s.lookback
    if v = 0 then ([], s)
    else
      let d := closes.getLast?.getD 0 - m
      if divSqrtLt d v s.entry_z && !s.in_position then
        ([⟨s.ticker, "BUY", s.quantity⟩], { s with in_position := true })
      else if divSqrtGt d v s.exit_z && s.in_position then
        ([⟨s.ticker, "SELL", s.quantity⟩], { s with in_position := false })
      else ([], s)

/-- `backtest/strategies/sma_crossover.py`: parameters plus the private
`_in_position` flag. -/
structure SMACrossover where
  ticker : String
  short_window : ℕ
  long_window : ℕ
  quantity : ℤ
  in_position : Bool
  deriving DecidableEq, Repr

/-- `SMACrossover.on_data(history)`: returns the emitted orders together
with the updated strategy state.  `.iloc[-2]` of a rolling mean is the
mean of the window ending at the second-to-last row, i.e. the rolling mean
of `closes.dropLast` (well-defined for windows no longer than
`long_window`, which the guard `len ≥ long_window + 1` then covers). -/
def SMACrossover.on_data (s : SMACrossover) (history : List Bar) :
    List Order × SMACrossover :=
  if history.length < s.long_window + 1 then ([], s)
  else
    let closes := history.map Bar.close
    let short_today := rmean closes s.short_window
    let long_today := rmean closes s.long_window
    let short_yesterday := rmean closes.dropLast s.short_window
    let long_yesterday := rmean closes.dropLast s.long_window
    if short_yesterday < long_yesterday ∧ short_today > long_today then
      if !s.in_position then
        ([⟨s.ticker, "BUY", s.quantity⟩], { s with in_position := true })
      else ([], s)
    else if short_yesterday > long_yesterday ∧ short_today < long_today then
      if s.in_position then
        ([⟨s.ticker, "SELL", s.quantity⟩], { s with in_position := false })
      else ([], s)
    else ([], s)

/-! ### Metrics (`backtest/metrics/performance.py`) -/

/-- `Series.cummax()` continuation: running maxima given the maximum so
far. -/
def cummaxFrom (m : ℚ) : List ℚ → List ℚ
  | [] => []
  | e :: rest => max m e :: cummaxFrom (max m e) rest

/-- `Series(equities).cummax()`. -/
def cummax : List ℚ → List ℚ
  | [] => []
  | e :: rest => e :: cummaxFrom e rest

/-- `(equity_series - rolling_max) / rolling_max * 100`. -/
def drawdowns (equities : List ℚ) : List ℚ :=
  List.zipWith (fun e m => (e - m) / m * 100) equities (cummax equities)

/-- `float(drawdown.min())`; `0` only as the junk value of an empty
history (pandas would return NaN there). -/
def max_drawdown_pct (equities : List ℚ) : ℚ :=
  ((drawdowns equities).min?).getD 0

/-- The win-rate loop of `compute_metrics`: walk the trade log keeping the
queue of pending BUY prices; a SELL pops the front of the queue (if any),
completing one round trip, counted as a win if the SELL price strictly
exceeds the popped BUY price.  The ticker is not consulted. -/
def winRateLoop : List Trade → List ℚ → ℕ → ℕ → ℕ × ℕ
  | [], _, wins, completed => (wins, completed)
  | t :: rest, pending, wins, completed =>
    if t.side = "BUY" then winRateLoop rest (pending ++ [t.price]) wins completed
    else if t.side = "SELL" then
      match pending with
      | [] => winRateLoop rest [] wins completed
      | b :: ps =>
        winRateLoop rest ps (if b < t.price then wins + 1 else wins) (completed + 1)
    else winRateLoop rest pending wins completed

/-- `win_rate_pct` as computed by `compute_metrics`. -/
def win_rate_pct (trade_log : List Trade) : ℚ :=
  let wc := winRateLoop trade_log [] 0 0
  if 0 < wc.2 then (wc.1 : ℚ) / (wc.2 : ℚ) * 100 else 0

/-- The list of completed (BUY price, SELL price) round trips under
ticker-blind first-in-first-out pairing: each SELL closes the earliest
still-pending BUY, regardless of instrument.  A declarative restatement of
the pairing the win-rate loop performs. -/
def fifoPairs : List Trade → List ℚ → List (ℚ × ℚ)
  | [], _ => []
  | t :: rest, pending =>
    if t.side = "BUY" then fifoPairs rest (pending ++ [t.price])
    else if t.side = "SELL" then
      match pending with
      | [] => fifoPairs rest []
      | b :: ps => (b, t.price) :: fifoPairs rest ps
    else fifoPairs rest pending

/-- Remove the earliest pending BUY of the given ticker, returning its
price and the remaining queue. -/
def removeFirstBuyOf : List (String × ℚ) → String → Option (ℚ × List (String × ℚ))
  | [], _ => none
  | (tk, pr) :: rest, t =>
    if tk = t then some (pr, rest)
    else
      match removeFirstBuyOf rest t with
      | none => none
      | some (b, rest') => some (b, (tk, pr) :: rest')

/-- The round trips described by claim C7's words: each SELL is paired
with the earliest unmatched earlier BUY **of the same instrument**.  Used
only to compare that description with the code's ticker-blind pairing. -/
def fifoPairsByTicker : List Trade → List (String × ℚ) → List (ℚ × ℚ)
  | [], _ => []
  | t :: rest, pending =>
    if t.side = "BUY" then fifoPairsByTicker rest (pending ++ [(t.ticker, t.price)])
    else if t.side = "SELL" then
      match removeFirstBuyOf pending t.ticker with
      | none => fifoPairsByTicker rest pending
      | some (b, pending') => (b, t.price) :: fifoPairsByTicker rest pending'
    else fifoPairsByTicker rest pending

/-- Win rate computed from the same-instrument pairing of claim C7's
words. -/
def win_rate_pct_byTicker (trade_log : List Trade) : ℚ :=
  let pairs := fifoPairsByTicker trade_log []
  if 0 < pairs.length then
    ((pairs.countP fun bp => bp.1 < bp.2 : ℕ) : ℚ) / (pairs.length : ℚ) * 100
  else 0


/-! ### Dictionary lemmas -/

theorem pget_pset_self (ps : List (String × ℤ)) (t : String) (n : ℤ) :
    pget (pset ps t n) t = n := by
  induction ps with
  | nil => simp [pset, pget]
  | cons kv rest ih =>
    obtain ⟨k, v⟩ := kv
    by_cases h : k = t
    · simp [pset, pget, h]
    · simp [pset, pget, h, ih]

theorem pHas_pset_self (ps : List (String × ℤ)) (t : String) (n : ℤ) :
    pHas (pset ps t n) t = true := by
  induction ps with
  | nil => simp [pset, pHas]
  | cons kv rest ih =>
    obtain ⟨k, v⟩ := kv
    by_cases h : k = t
    · simp [pset, pHas, h]
    · simp [pset, pHas, h, ih]

theorem pget_perase_self (ps : List (String × ℤ)) (t : String) :
    pget (perase ps t) t = 0 := by
  induction ps with
  | nil => simp [perase, pget]
  | cons kv rest ih =>
    obtain ⟨k, v⟩ := kv
    by_cases h : k = t
    · simp [perase, h, ih]
    · simp [perase, pget, h, ih]

theorem pHas_perase_self (ps : List (String × ℤ)) (t : String) :
    pHas (perase ps t) t = false := by
  induction ps with
  | nil => simp [perase, pHas]
  | cons kv rest ih =>
    obtain ⟨k, v⟩ := kv
    by_cases h : k = t
    · simp [perase, h, ih]
    · simp [perase, pHas, h, ih]

theorem mem_pset (ps : List (String × ℤ)) (t : String) (n : ℤ) (kv : String × ℤ)
    (h : kv ∈ pset ps t n) : kv = (t, n) ∨ kv ∈ ps := by
  induction ps with
  | nil => simpa [pset] using h
  | cons hd rest ih =>
    obtain ⟨k, v⟩ := hd
    by_cases hk : k = t
    · subst hk
      rcases (by simpa [pset] using h : kv = (k, n) ∨ kv ∈ rest) with h1 | h1
      · exact Or.inl h1
      · exact Or.inr (List.mem_cons_of_mem _ h1)
    · rcases (by simpa [pset, hk] using h : kv = (k, v) ∨ kv ∈ pset rest t n) with h1 | h1
      · exact Or.inr (by simp [h1])
      · rcases ih h1 with h2 | h2
        · exact Or.inl h2
        · exact Or.inr (List.mem_cons_of_mem _ h2)

theorem mem_perase (ps : List (String × ℤ)) (t : String) (kv : String × ℤ)
    (h : kv ∈ perase ps t) : kv ∈ ps := by
  induction ps with
  | nil => simp [perase] at h
  | cons hd rest ih =>
    obtain ⟨k, v⟩ := hd
    by_cases hk : k = t
    · exact List.mem_cons_of_mem _ (ih (by simpa [perase, hk] using h))
    · rcases (by simpa [perase, hk] using h : kv = (k, v) ∨ kv ∈ perase rest t) with h1 | h1
      · simp [h1]
      · exact List.mem_cons_of_mem _ (ih h1)

theorem pget_nonneg (ps : List (String × ℤ)) (t : String)
    (h : ∀ kv ∈ ps, 0 < kv.2) : 0 ≤ pget ps t := by
  induction ps with
  | nil => simp [pget]
  | cons hd rest ih =>
    obtain ⟨k, v⟩ := hd
    by_cases hk : k = t
    · have := h (k, v) (by simp)
      simpa [pget, hk] using this.le
    · have hg : pget ((k, v) :: rest) t = pget rest t := by simp [pget, hk]
      rw [hg]
      exact ih fun kv hkv => h kv (List.mem_cons_of_mem _ hkv)

theorem mem_perase_ne (ps : List (String × ℤ)) (t : String) (kv : String × ℤ)
    (h : kv ∈ perase ps t) : kv.1 ≠ t := by
  induction ps with
  | nil => simp [perase] at h
  | cons hd rest ih =>
    obtain ⟨k, v⟩ := hd
    by_cases hk : k = t
    · exact ih (by simpa [perase, hk] using h)
    · rcases (by simpa [perase, hk] using h : kv = (k, v) ∨ kv ∈ perase rest t) with h1 | h1
      · simpa [h1] using hk
      · exact ih h1

theorem pHas_pset_ne (ps : List (String × ℤ)) (t t' : String) (n : ℤ)
    (h : t ≠ t') : pHas (pset ps t' n) t = pHas ps t := by
  induction ps with
  | nil => simp [pset, pHas, Ne.symm h]
  | cons hd rest ih =>
    obtain ⟨k, v⟩ := hd
    by_cases hk : k = t'
    · subst hk
      simp [pset, pHas, Ne.symm h]
    · simp [pset, pHas, hk, ih]

theorem pHas_pset_of_pHas (ps : List (String × ℤ)) (t t' : String) (n : ℤ)
    (h : pHas ps t = true) : pHas (pset ps t' n) t = true := by
  by_cases ht : t = t'
  · subst ht; exact pHas_pset_self ps t n
  · rw [pHas_pset_ne ps t t' n ht]; exact h

/-! ### C2, C3: effect of accepted BUY / SELL orders -/

/-- C2: a BUY of quantity `q` at price `p` with commission rate `c` is
accepted iff `p*q*(1+c) ≤ cash`; when accepted, `execute_order` returns
`true`, cash decreases by exactly `p*q*(1+c)`, and the held count of the
order's ticker increases by exactly `q` (with an entry present afterwards
even if the ticker was not held before). -/
theorem buy_order_effect (p : Portfolio) (o : Order) (price c : ℚ)
    (hside : o.side = "BUY") :
    ((p.execute_order o price c).1 = true ↔
        price * (o.quantity : ℚ) * (1 + c) ≤ p.cash)
    ∧ ((p.execute_order o price c).1 = true →
        (p.execute_order o price c).2.cash
            = p.cash - price * (o.quantity : ℚ) * (1 + c)
        ∧ pget (p.execute_order o price c).2.positions o.ticker
            = pget p.positions o.ticker + o.quantity
        ∧ pHas (p.execute_order o price c).2.positions o.ticker = true) := by
  unfold Portfolio.execute_order
  rw [hside]
  by_cases h : price * (o.quantity : ℚ) * (1 + c) > p.cash
  · simp [h, not_le.mpr h]
  · simp [h, pget_pset_self, pHas_pset_self, le_of_not_lt h]

theorem buy_order_effect_witness :
    ((Portfolio.mk 100 []).execute_order (Order.mk "A" "BUY" 3) 10 0).1 = true
    ∧ ((Portfolio.mk 100 []).execute_order (Order.mk "A" "BUY" 3) 10 0).2.cash = 70
    ∧ pget ((Portfolio.mk 100 []).execute_order (Order.mk "A" "BUY" 3) 10 0).2.positions "A"
        = 3 := by
  have h := buy_order_effect (Portfolio.mk 100 []) (Order.mk "A" "BUY" 3) 10 0 rfl
  have h1 : ((Portfolio.mk 100 []).execute_order (Order.mk "A" "BUY" 3) 10 0).1 = true :=
    h.1.mpr (by norm_num)
  obtain ⟨hcash, hpos, -⟩ := h.2 h1
  refine ⟨h1, ?_, ?_⟩
  · rw [hcash]; norm_num
  · rw [hpos]; simp [pget]

/-- C3: a SELL of positive quantity `q` at price `p` with commission rate
`c` is accepted iff the held count of the order's ticker is at least `q`;
when accepted, `execute_order` returns `true`, cash increases by exactly
`p*q*(1-c)`, the held count decreases by exactly `q`, and the entry is
removed from the positions map exactly when the count reaches `0`. -/
theorem sell_order_effect (p : Portfolio) (o : Order) (price c : ℚ)
    (hside : o.side = "SELL") (_hq : 0 < o.quantity) :
    ((p.execute_order o price c).1 = true ↔
        o.quantity ≤ pget p.positions o.ticker)
    ∧ ((p.execute_order o price c).1 = true →
        (p.execute_order o price c).2.cash
            = p.cash + price * (o.quantity : ℚ) * (1 - c)
        ∧ pget (p.execute_order o price c).2.positions o.ticker
            = pget p.positions o.ticker - o.quantity
        ∧ (pget p.positions o.ticker - o.quantity = 0 →
            pHas (p.execute_order o price c).2.positions o.ticker = false)
        ∧ (pget p.positions o.ticker - o.quantity ≠ 0 →
            pHas (p.execute_order o price c).2.positions o.ticker = true)) := by
  unfold Portfolio.execute_order
  rw [hside]
  rw [if_neg (by decide : ¬ ("SELL" : String) = "BUY"), if_pos rfl]
  by_cases h : pget p.positions o.ticker < o.quantity
  · simp [h, not_le.mpr h]
  · by_cases h0 : pget p.positions o.ticker - o.quantity = 0
    · simp [h, h0, le_of_not_lt h, pget_pset_self, pget_perase_self,
        pHas_perase_self, eq_comm]
    · simp [h, h0, le_of_not_lt h, pget_pset_self, pHas_pset_self]

theorem sell_order_effect_witness :
    (0 : ℤ) < 3
    ∧ ((Portfolio.mk 0 [("A", 3)]).execute_order (Order.mk "A" "SELL" 3) 10 0).1 = true
    ∧ ((Portfolio.mk 0 [("A", 3)]).execute_order (Order.mk "A" "SELL" 3) 10 0).2.cash = 30
    ∧ pHas ((Portfolio.mk 0 [("A", 3)]).execute_order
        (Order.mk "A" "SELL" 3) 10 0).2.positions "A" = false := by
  have h := sell_order_effect (Portfolio.mk 0 [("A", 3)]) (Order.mk "A" "SELL" 3) 10 0
    rfl (by decide)
  have h1 : ((Portfolio.mk 0 [("A", 3)]).execute_order (Order.mk "A" "SELL" 3) 10 0).1
      = true := h.1.mpr (by simp [pget])
  obtain ⟨hcash, -, hprune, -⟩ := h.2 h1
  refine ⟨by decide, h1, ?_, hprune (by simp [pget])⟩
  rw [hcash]; norm_num

/-! ### C4: rejected orders have no effect -/

/-- C4: a rejected order (in particular any order whose side is neither
"BUY" nor "SELL") leaves the portfolio's cash and positions exactly as
they were, and the backtester's order loop neither increments the
accepted-trade counter nor appends a trade record for it. -/
theorem rejected_order_no_effect (p : Portfolio) (o : Order) (price c : ℚ) :
    (o.side ≠ "BUY" → o.side ≠ "SELL" → (p.execute_order o price c).1 = false)
    ∧ ((p.execute_order o price c).1 = false →
        (p.execute_order o price c).2 = p
        ∧ ∀ (rest : List Order) (date total_trades : ℕ) (trade_log : List Trade),
            processOrders p (o :: rest) price c date total_trades trade_log
              = processOrders p rest price c date total_trades trade_log) := by
  constructor
  · intro h1 h2
    simp [Portfolio.execute_order, h1, h2]
  · intro hf
    have hp : (p.execute_order o price c).2 = p := by
      simp only [Portfolio.execute_order] at hf ⊢
      split_ifs at hf ⊢ <;> simp_all
    refine ⟨hp, fun rest date total_trades trade_log => ?_⟩
    simp only [processOrders, hf]
    rw [hp]
    simp

theorem rejected_order_no_effect_witness :
    ((Portfolio.mk 5 []).execute_order (Order.mk "A" "BUY" 3) 10 0).1 = false
    ∧ ((Portfolio.mk 5 []).execute_order (Order.mk "A" "BUY" 3) 10 0).2 = Portfolio.mk 5 []
    ∧ processOrders (Portfolio.mk 5 []) [Order.mk "A" "BUY" 3] 10 0 7 0 []
        = processOrders (Portfolio.mk 5 []) [] 10 0 7 0 [] := by
  have hf : ((Portfolio.mk 5 []).execute_order (Order.mk "A" "BUY" 3) 10 0).1 = false := by
    simp [Portfolio.execute_order]
    norm_num
  have h := (rejected_order_no_effect (Portfolio.mk 5 []) (Order.mk "A" "BUY" 3) 10 0).2 hf
  exact ⟨hf, h.1, h.2 [] 7 0 []⟩

/-! ### C5: the portfolio invariant is preserved -/

/-- C5: starting from a portfolio with nonnegative cash and strictly
positive position counts, executing any order with a nonnegative price, a
commission rate in [0,1) and a positive quantity preserves the invariant:
cash stays nonnegative and every remaining positions entry has a strictly
positive count. -/
theorem execute_order_preserves_invariant (p : Portfolio) (o : Order) (price c : ℚ)
    (hwf : PortfolioWF p) (hprice : 0 ≤ price) (_hc0 : 0 ≤ c) (hc1 : c < 1)
    (hq : 0 < o.quantity) :
    PortfolioWF (p.execute_order o price c).2 := by
  obtain ⟨hcash, hpos⟩ := hwf
  by_cases hb : o.side = "BUY"
  · by_cases h : price * (o.quantity : ℚ) * (1 + c) > p.cash
    · simp only [Portfolio.execute_order, hb, if_pos rfl, if_pos h]
      exact ⟨hcash, hpos⟩
    · simp only [Portfolio.execute_order, hb, if_pos rfl, if_neg h]
      constructor
      · have := le_of_not_lt h
        show (0 : ℚ) ≤ p.cash - price * (o.quantity : ℚ) * (1 + c)
        linarith
      · intro kv hkv
        rcases mem_pset _ _ _ _ hkv with h1 | h1
        · have h0 := pget_nonneg p.positions o.ticker hpos
          rw [h1]
          dsimp only
          omega
        · exact hpos kv h1
  · by_cases hs : o.side = "SELL"
    · by_cases h : pget p.positions o.ticker < o.quantity
      · simp only [Portfolio.execute_order, hb, if_neg hb, hs, if_pos rfl, if_pos h]
        exact ⟨hcash, hpos⟩
      · have hheld : o.quantity ≤ pget p.positions o.ticker := le_of_not_lt h
        have hcredit : 0 ≤ price * (o.quantity : ℚ) * (1 - c) := by
          have hq' : (0 : ℚ) ≤ (o.quantity : ℚ) := by exact_mod_cast hq.le
          have h1c : (0 : ℚ) ≤ 1 - c := by linarith
          exact mul_nonneg (mul_nonneg hprice hq') h1c
        by_cases h0 :
            pget (pset p.positions o.ticker (pget p.positions o.ticker - o.quantity))
              o.ticker = 0
        · simp only [Portfolio.execute_order, hb, if_neg hb, hs, if_pos rfl, if_neg h,
            if_pos h0]
          constructor
          · show (0 : ℚ) ≤ p.cash + price * (o.quantity : ℚ) * (1 - c)
            linarith
          · intro kv hkv
            have hne := mem_perase_ne _ _ _ hkv
            rcases mem_pset _ _ _ _ (mem_perase _ _ _ hkv) with h1 | h1
            · exact absurd (by rw [h1]) hne
            · exact hpos kv h1
        · simp only [Portfolio.execute_order, hb, if_neg hb, hs, if_pos rfl, if_neg h,
            if_neg h0]
          constructor
          · show (0 : ℚ) ≤ p.cash + price * (o.quantity : ℚ) * (1 - c)
            linarith
          · intro kv hkv
            rcases mem_pset _ _ _ _ hkv with h1 | h1
            · rw [pget_pset_self] at h0
              rw [h1]
              dsimp only
              omega
            · exact hpos kv h1
    · simp only [Portfolio.execute_order, hb, if_neg hb, hs, if_neg hs]
      exact ⟨hcash, hpos⟩

theorem execute_order_preserves_invariant_witness :
    PortfolioWF (Portfolio.mk 100 [("B", 2)])
    ∧ (0 : ℚ) ≤ 10 ∧ (0 : ℚ) ≤ 1/100 ∧ (1 : ℚ)/100 < 1 ∧ (0 : ℤ) < 3
    ∧ PortfolioWF
        ((Portfolio.mk 100 [("B", 2)]).execute_order (Order.mk "A" "BUY" 3) 10 (1/100)).2 := by
  have hwf : PortfolioWF (Portfolio.mk 100 [("B", 2)]) := by
    constructor
    · norm_num
    · intro kv hkv
      simp at hkv
      simp [hkv]
  refine ⟨hwf, by norm_num, by norm_num, by norm_num, by decide, ?_⟩
  exact execute_order_preserves_invariant (Portfolio.mk 100 [("B", 2)])
    (Order.mk "A" "BUY" 3) 10 (1/100) hwf (by norm_num) (by norm_num) (by norm_num)
    (by decide)

/-! ### C9: a BUY of quantity zero -/

/-- C9: a BUY of quantity 0 is accepted whenever cash is nonnegative (its
cost is 0), for any price and any commission rate: `execute_order` returns
true, cash is unchanged, the held count of the ticker is unchanged, and
afterwards the positions map contains an entry for the ticker — a count-0
entry if the ticker was absent — which stays because entry removal happens
only on the SELL path (no non-SELL order ever removes an entry). -/
theorem buy_zero_quantity_accepted (p : Portfolio) (o : Order) (price c : ℚ)
    (hside : o.side = "BUY") (hq : o.quantity = 0) (hcash : 0 ≤ p.cash) :
    (p.execute_order o price c).1 = true
    ∧ (p.execute_order o price c).2.cash = p.cash
    ∧ pHas (p.execute_order o price c).2.positions o.ticker = true
    ∧ pget (p.execute_order o price c).2.positions o.ticker = pget p.positions o.ticker
    ∧ (∀ (o' : Order) (price' c' : ℚ) (t : String), o'.side ≠ "SELL" →
        pHas p.positions t = true →
        pHas (p.execute_order o' price' c').2.positions t = true) := by
  have hnot : ¬ (p.cash < 0) := not_lt.mpr hcash
  refine ⟨?_, ?_, ?_, ?_, ?_⟩
  · simp [Portfolio.execute_order, hside, hq, hnot]
  · simp [Portfolio.execute_order, hside, hq, hnot]
  · simp [Portfolio.execute_order, hside, hq, hnot, pHas_pset_self]
  · simp [Portfolio.execute_order, hside, hq, hnot, pget_pset_self]
  · intro o' price' c' t hs' hHas
    by_cases hb' : o'.side = "BUY"
    · by_cases h' : price' * (o'.quantity : ℚ) * (1 + c') > p.cash
      · simpa [Portfolio.execute_order, hb', h'] using hHas
      · simpa [Portfolio.execute_order, hb', h'] using pHas_pset_of_pHas _ _ _ _ hHas
    · simpa [Portfolio.execute_order, hb', hs'] using hHas

theorem buy_zero_quantity_accepted_witness :
    (Order.mk "A" "BUY" 0).side = "BUY" ∧ (Order.mk "A" "BUY" 0).quantity = 0
    ∧ (0 : ℚ) ≤ 100
    ∧ ((Portfolio.mk 100 []).execute_order (Order.mk "A" "BUY" 0) 10 0).1 = true
    ∧ ((Portfolio.mk 100 []).execute_order (Order.mk "A" "BUY" 0) 10 0).2.cash = 100
    ∧ pHas ((Portfolio.mk 100 []).execute_order
        (Order.mk "A" "BUY" 0) 10 0).2.positions "A" = true := by
  have h := buy_zero_quantity_accepted (Portfolio.mk 100 []) (Order.mk "A" "BUY" 0)
    10 0 rfl rfl (by norm_num)
  exact ⟨rfl, rfl, by norm_num, h.1, h.2.1, h.2.2.1⟩

/-! ### C1: the no-lookahead guarantee -/

theorem runDays_calls {σ : Type} (step : σ → List Bar → List Order × σ)
    (commission_pct : ℚ) (data : List Bar) (idxs : List ℕ) (st : RunState σ) :
    (runDays step commission_pct data idxs st).calls
      = st.calls ++ idxs.map (fun i => data.take (i + 1)) := by
  induction idxs generalizing st with
  | nil => simp [runDays]
  | cons i rest ih =>
    simp only [runDays]
    rw [ih]
    simp

theorem runBacktest_calls {σ : Type} (step : σ → List Bar → List Order × σ)
    (s0 : σ) (data : List Bar) (starting_capital commission_pct : ℚ) :
    (runBacktest step s0 data starting_capital commission_pct).calls
      = (List.range data.length).map (fun i => data.take (i + 1)) := by
  simp [runBacktest, runDays_calls]

/-- C1: on every day index `i < N` the backtester invokes the strategy
with exactly the first `i + 1` rows of the price history (days `0..i`):
the `i`-th recorded call view is `data.take (i + 1)`, which has length
`i + 1`, agrees with the full history on every index `k ≤ i`, contains no
row of index `i + 1` or later, and whose last row is day `i`'s row. -/
theorem no_lookahead {σ : Type} (step : σ → List Bar → List Order × σ) (s0 : σ)
    (data : List Bar) (starting_capital commission_pct : ℚ) (i : ℕ)
    (h : i < data.length) :
    (runBacktest step s0 data starting_capital commission_pct).calls[i]?
        = some (data.take (i + 1))
    ∧ (data.take (i + 1)).length = i + 1
    ∧ (∀ k, k ≤ i → (data.take (i + 1))[k]? = data[k]?)
    ∧ (∀ k, i < k → (data.take (i + 1))[k]? = none)
    ∧ (data.take (i + 1)).getLast? = data[i]? := by
  have hlen : (data.take (i + 1)).length = i + 1 := by
    simp [List.length_take]
    omega
  refine ⟨?_, hlen, ?_, ?_, ?_⟩
  · rw [runBacktest_calls, List.getElem?_map, List.getElem?_range h]
    rfl
  · intro k hk
    exact List.getElem?_take_of_lt (by omega)
  · intro k hk
    apply List.getElem?_eq_none
    omega
  · rw [List.getLast?_eq_getElem?, hlen]
    simp [List.getElem?_take_of_lt (l := data) (Nat.lt_succ_self i)]

theorem no_lookahead_witness :
    (1 < ([⟨1, 10⟩, ⟨2, 11⟩, ⟨3, 12⟩] : List Bar).length)
    ∧ (runBacktest (fun (s : Unit) (_ : List Bar) => ([], s)) ()
        [⟨1, 10⟩, ⟨2, 11⟩, ⟨3, 12⟩] 100 0).calls[1]?
        = some [⟨1, 10⟩, ⟨2, 11⟩]
    ∧ (([⟨1, 10⟩, ⟨2, 11⟩, ⟨3, 12⟩] : List Bar).take 2).length = 2
    ∧ (([⟨1, 10⟩, ⟨2, 11⟩, ⟨3, 12⟩] : List Bar).take 2)[2]? = none
    ∧ (([⟨1, 10⟩, ⟨2, 11⟩, ⟨3, 12⟩] : List Bar).take 2).getLast?
        = ([⟨1, 10⟩, ⟨2, 11⟩, ⟨3, 12⟩] : List Bar)[1]? := by
  have h := no_lookahead (fun (s : Unit) (_ : List Bar) => ([], s)) ()
    [⟨1, 10⟩, ⟨2, 11⟩, ⟨3, 12⟩] 100 0 1 (by norm_num)
  exact ⟨by norm_num, h.1, h.2.1, h.2.2.2.1 2 (by norm_num), h.2.2.2.2⟩

/-! ### C8: boundedness of the max drawdown -/

theorem qmin?_mem {l : List ℚ} {a : ℚ} (h : l.min? = some a) : a ∈ l :=
  List.min?_mem (fun _ _ => min_choice _ _) h

theorem qmin?_le {l : List ℚ} {a b : ℚ} (h : l.min? = some a) (hb : b ∈ l) : a ≤ b :=
  (List.le_min?_iff (fun _ _ _ => le_min_iff) h).mp (le_refl a) b hb

theorem cummaxFrom_length (m : ℚ) (l : List ℚ) :
    (cummaxFrom m l).length = l.length := by
  induction l generalizing m with
  | nil => simp [cummaxFrom]
  | cons e rest ih => simp [cummaxFrom, ih]

theorem cummax_length (l : List ℚ) : (cummax l).length = l.length := by
  cases l with
  | nil => simp [cummax]
  | cons e rest => simp [cummax, cummaxFrom_length]

theorem cummaxFrom_ge_init (l : List ℚ) (m : ℚ) (k : ℕ) (y : ℚ)
    (h : (cummaxFrom m l)[k]? = some y) : m ≤ y := by
  induction l generalizing m k with
  | nil => simp [cummaxFrom] at h
  | cons e rest ih =>
    cases k with
    | zero =>
      simp [cummaxFrom] at h
      rw [← h]
      exact le_max_left m e
    | succ k =>
      exact (le_max_left m e).trans (ih (max m e) k (by simpa [cummaxFrom] using h))

theorem cummaxFrom_prefix_le (l : List ℚ) (m : ℚ) (j k : ℕ) (hjk : j ≤ k)
    (x y : ℚ) (hx : l[j]? = some x) (hy : (cummaxFrom m l)[k]? = some y) : x ≤ y := by
  induction l generalizing m j k with
  | nil => simp at hx
  | cons e rest ih =>
    cases j with
    | zero =>
      simp at hx
      subst hx
      cases k with
      | zero =>
        simp [cummaxFrom] at hy
        rw [← hy]
        exact le_max_right m e
      | succ k =>
        exact (le_max_right m e).trans
          (cummaxFrom_ge_init rest (max m e) k y (by simpa [cummaxFrom] using hy))
    | succ j =>
      cases k with
      | zero => omega
      | succ k =>
        exact ih (max m e) j k (by omega) (by simpa using hx)
          (by simpa [cummaxFrom] using hy)

theorem cummax_prefix_le (l : List ℚ) (j k : ℕ) (hjk : j ≤ k) (x y : ℚ)
    (hx : l[j]? = some x) (hy : (cummax l)[k]? = some y) : x ≤ y := by
  cases l with
  | nil => simp at hx
  | cons e rest =>
    cases j with
    | zero =>
      simp at hx
      subst hx
      cases k with
      | zero =>
        simp [cummax] at hy
        exact hy.le
      | succ k =>
        exact cummaxFrom_ge_init rest e k y (by simpa [cummax] using hy)
    | succ j =>
      cases k with
      | zero => omega
      | succ k =>
        exact cummaxFrom_prefix_le rest e j k (by omega) x y (by simpa using hx)
          (by simpa [cummax] using hy)

theorem zipdd_getElem? (f : ℚ → ℚ → ℚ) (l₁ l₂ : List ℚ) (k : ℕ) (x y : ℚ)
    (hx : l₁[k]? = some x) (hy : l₂[k]? = some y) :
    (List.zipWith f l₁ l₂)[k]? = some (f x y) := by
  induction l₁ generalizing l₂ k with
  | nil => simp at hx
  | cons e rest ih =>
    cases l₂ with
    | nil => simp at hy
    | cons e' rest' =>
      cases k with
      | zero =>
        simp at hx hy
        simp [hx, hy]
      | succ k =>
        simpa using ih rest' k (by simpa using hx) (by simpa using hy)

theorem dd_from_nonpos (l : List ℚ) (m : ℚ) (hm : 0 < m) (hpos : ∀ x ∈ l, 0 < x) :
    ∀ d ∈ List.zipWith (fun e mm => (e - mm) / mm * 100) l (cummaxFrom m l), d ≤ 0 := by
  induction l generalizing m with
  | nil => simp [cummaxFrom]
  | cons e rest ih =>
    intro d hd
    simp only [cummaxFrom, List.zipWith_cons_cons, List.mem_cons] at hd
    rcases hd with hd | hd
    · have hme : e ≤ max m e := le_max_right m e
      have hmp : 0 < max m e := lt_of_lt_of_le hm (le_max_left m e)
      have hq : (e - max m e) / max m e ≤ 0 :=
        div_nonpos_iff.mpr (Or.inr ⟨sub_nonpos.mpr hme, hmp.le⟩)
      rw [hd]
      nlinarith
    · exact ih (max m e) (lt_of_lt_of_le hm (le_max_left m e))
        (fun x hx => hpos x (List.mem_cons_of_mem _ hx)) d hd

theorem dd_nonpos (l : List ℚ) (hpos : ∀ x ∈ l, 0 < x) :
    ∀ d ∈ drawdowns l, d ≤ 0 := by
  cases l with
  | nil => simp [drawdowns, cummax]
  | cons e rest =>
    intro d hd
    simp only [drawdowns, cummax, List.zipWith_cons_cons, List.mem_cons] at hd
    rcases hd with hd | hd
    · rw [hd]
      simp
    · exact dd_from_nonpos rest e (hpos e (by simp))
        (fun x hx => hpos x (List.mem_cons_of_mem _ hx)) d hd

/-- C8: for a non-empty equity history of positive equities, the max
drawdown statistic is always ≤ 0, and it equals 0 only when no equity
value falls strictly below the running maximum of the values before it
(equivalently, the history is weakly increasing). -/
theorem max_drawdown_bounds (equities : List ℚ) (hne : equities ≠ [])
    (hpos : ∀ x ∈ equities, 0 < x) :
    max_drawdown_pct equities ≤ 0
    ∧ (max_drawdown_pct equities = 0 →
        ∀ (j k : ℕ) (x y : ℚ), j < k →
          equities[j]? = some x → equities[k]? = some y → x ≤ y) := by
  have hddlen : (drawdowns equities).length = equities.length := by
    simp [drawdowns, cummax_length]
  obtain ⟨a, ha⟩ : ∃ a, (drawdowns equities).min? = some a := by
    cases hmn : (drawdowns equities).min? with
    | none =>
      have : drawdowns equities = [] := List.min?_eq_none_iff.mp hmn
      rw [this] at hddlen
      exact absurd (List.length_eq_zero.mp hddlen.symm) hne
    | some a => exact ⟨a, rfl⟩
  have hmdd : max_drawdown_pct equities = a := by
    simp [max_drawdown_pct, ha]
  constructor
  · rw [hmdd]
    exact dd_nonpos equities hpos a (qmin?_mem ha)
  · intro h0 j k x y hjk hx hy
    rw [hmdd] at h0
    subst h0
    have hk : k < equities.length := List.getElem?_eq_some_iff.mp hy |>.1
    have hkc : k < (cummax equities).length := by rw [cummax_length]; exact hk
    obtain ⟨w, hw⟩ : ∃ w, (cummax equities)[k]? = some w :=
      ⟨(cummax equities)[k], List.getElem?_eq_getElem hkc⟩
    have hxw : x ≤ w := cummax_prefix_le equities j k hjk.le x w hx hw
    have hyw : y ≤ w := cummax_prefix_le equities k k le_rfl y w hy hw
    have hy0 : 0 < y := hpos y (List.getElem?_mem hy)
    have hw0 : 0 < w := lt_of_lt_of_le hy0 hyw
    have hdk : (drawdowns equities)[k]? = some ((y - w) / w * 100) :=
      zipdd_getElem? _ equities (cummax equities) k y w hy hw
    have hdmem := List.getElem?_mem hdk
    have hge := qmin?_le ha hdmem
    have hle := dd_nonpos equities hpos _ hdmem
    have hz : (y - w) / w * 100 = 0 := le_antisymm hle hge
    have hyw' : y = w := by
      have h100 : (y - w) / w = 0 := by linarith
      have := div_eq_zero_iff.mp h100
      rcases this with h' | h'
      · linarith [sub_eq_zero.mp h']
      · exact absurd h' (ne_of_gt hw0)
    linarith

theorem max_drawdown_bounds_witness :
    (([1, 2] : List ℚ) ≠ [])
    ∧ max_drawdown_pct [1, 2] ≤ 0
    ∧ ((1 : ℚ) ≤ 2) := by
  have hpos : ∀ x ∈ ([1, 2] : List ℚ), 0 < x := by
    intro x hx
    rcases (by simpa using hx : x = 1 ∨ x = 2) with rfl | rfl <;> norm_num
  have h := max_drawdown_bounds [1, 2] (by simp) hpos
  have hz : max_drawdown_pct [1, 2] = 0 := by
    norm_num [max_drawdown_pct, drawdowns, cummax, cummaxFrom, List.min?]
  exact ⟨by simp, h.1, h.2 hz 0 1 1 2 (by norm_num) (by simp) (by simp)⟩

/-! ### C7: the win-rate pairing -/

theorem winRateLoop_spec (log : List Trade) (pending : List ℚ) (w c : ℕ) :
    winRateLoop log pending w c
      = (w + (fifoPairs log pending).countP (fun bp => decide (bp.1 < bp.2)),
         c + (fifoPairs log pending).length) := by
  induction log generalizing pending w c with
  | nil => simp [winRateLoop, fifoPairs]
  | cons t rest ih =>
    by_cases hb : t.side = "BUY"
    · simp [winRateLoop, fifoPairs, hb, ih]
    · by_cases hs : t.side = "SELL"
      · cases pending with
        | nil => simp [winRateLoop, fifoPairs, hb, hs, ih]
        | cons b ps =>
          by_cases hw : b < t.price <;>
            simp [winRateLoop, fifoPairs, hb, hs, hw, ih] <;> omega
      · simp [winRateLoop, fifoPairs, hb, hs, ih]

/-- C7 counterexample: the win-rate loop of `compute_metrics` pairs a SELL
with the earliest pending BUY *of any instrument*, not of the same
instrument.  On the log BUY A@10, BUY B@20, SELL B@15, the code pairs the
SELL of B with the BUY of A and reports 100% (15 > 10), while the claim's
same-instrument pairing pairs it with the BUY of B and yields 0%
(15 ≤ 20). -/
theorem win_rate_same_instrument_counterexample :
    win_rate_pct
        [⟨"BUY", 10, 1, "A", 0⟩, ⟨"BUY", 20, 1, "B", 1⟩, ⟨"SELL", 15, 1, "B", 2⟩] = 100
    ∧ win_rate_pct_byTicker
        [⟨"BUY", 10, 1, "A", 0⟩, ⟨"BUY", 20, 1, "B", 1⟩, ⟨"SELL", 15, 1, "B", 2⟩] = 0
    ∧ win_rate_pct
        [⟨"BUY", 10, 1, "A", 0⟩, ⟨"BUY", 20, 1, "B", 1⟩, ⟨"SELL", 15, 1, "B", 2⟩]
      ≠ win_rate_pct_byTicker
        [⟨"BUY", 10, 1, "A", 0⟩, ⟨"BUY", 20, 1, "B", 1⟩, ⟨"SELL", 15, 1, "B", 2⟩] := by
  refine ⟨?_, ?_, ?_⟩ <;>
    simp [win_rate_pct, winRateLoop, win_rate_pct_byTicker, fifoPairsByTicker,
      removeFirstBuyOf] <;> norm_num

/-- C7 (amended): the win-rate computation pairs each SELL trade with the
earliest unmatched earlier BUY trade *regardless of instrument* (strict
first-in-first-out over the whole trade log); a completed pair is a win
iff the SELL price strictly exceeds the paired BUY price; unmatched BUYs
and SELLs are excluded; win rate = wins / completed pairs × 100, and 0
when no pairs are completed. -/
theorem win_rate_fifo (log : List Trade) :
    win_rate_pct log
      = if (fifoPairs log []).length = 0 then 0
        else ((fifoPairs log []).countP (fun bp => decide (bp.1 < bp.2)) : ℚ)
              / ((fifoPairs log []).length : ℚ) * 100 := by
  by_cases hl : (fifoPairs log []).length = 0 <;>
    simp [win_rate_pct, winRateLoop_spec, hl, Nat.pos_of_ne_zero]

/-! ### C6: the mean-reversion z-score -/

theorem divSqrtLt_iff (d v e : ℚ) (hv : 0 < v) :
    divSqrtLt d v e = true ↔ (d : ℝ) / Real.sqrt ((v : ℚ) : ℝ) < (e : ℝ) := by
  have hv' : (0 : ℝ) < ((v : ℚ) : ℝ) := by exact_mod_cast hv
  have hs : 0 < Real.sqrt ((v : ℚ) : ℝ) := Real.sqrt_pos.mpr hv'
  have hs2 : Real.sqrt ((v : ℚ) : ℝ) ^ 2 = ((v : ℚ) : ℝ) := Real.sq_sqrt hv'.le
  rw [div_lt_iff₀ hs]
  unfold divSqrtLt
  by_cases he : 0 ≤ e
  · have he' : (0 : ℝ) ≤ (e : ℝ) := by exact_mod_cast he
    have hes : (0 : ℝ) ≤ (e : ℝ) * Real.sqrt ((v : ℚ) : ℝ) := mul_nonneg he' hs.le
    rw [if_pos he, Bool.or_eq_true, decide_eq_true_eq, decide_eq_true_eq]
    constructor
    · rintro (hd | hq)
      · have hd' : (d : ℝ) < 0 := by exact_mod_cast hd
        linarith
      · by_cases hd : (0 : ℚ) ≤ d
        · have hd' : (0 : ℝ) ≤ (d : ℝ) := by exact_mod_cast hd
          have h2 : (d : ℝ) ^ 2 < ((e : ℝ) * Real.sqrt ((v : ℚ) : ℝ)) ^ 2 := by
            rw [mul_pow, hs2]
            exact_mod_cast hq
          exact lt_of_pow_lt_pow_left₀ 2 hes h2
        · have hd' : (d : ℝ) < 0 := by exact_mod_cast not_le.mp hd
          linarith
    · intro h
      by_cases hd : d < 0
      · exact Or.inl hd
      · right
        have hd' : (0 : ℝ) ≤ (d : ℝ) := by exact_mod_cast not_lt.mp hd
        have h2 : (d : ℝ) ^ 2 < ((e : ℝ) * Real.sqrt ((v : ℚ) : ℝ)) ^ 2 :=
          pow_lt_pow_left₀ h hd' two_ne_zero
        rw [mul_pow, hs2] at h2
        exact_mod_cast h2
  · have he' : (e : ℝ) < 0 := by exact_mod_cast not_le.mp he
    have hes : (e : ℝ) * Real.sqrt ((v : ℚ) : ℝ) < 0 := mul_neg_of_neg_of_pos he' hs
    rw [if_neg he, Bool.and_eq_true, decide_eq_true_eq, decide_eq_true_eq]
    constructor
    · rintro ⟨hd, hq⟩
      have hd' : (d : ℝ) < 0 := by exact_mod_cast hd
      have h2 : ((e : ℝ) * Real.sqrt ((v : ℚ) : ℝ)) ^ 2 < (d : ℝ) ^ 2 := by
        rw [mul_pow, hs2]
        exact_mod_cast hq
      have h3 : (-((e : ℝ) * Real.sqrt ((v : ℚ) : ℝ))) ^ 2 < (-(d : ℝ)) ^ 2 := by
        simpa using h2
      have h4 := lt_of_pow_lt_pow_left₀ 2 (by linarith : (0 : ℝ) ≤ -(d : ℝ)) h3
      linarith
    · intro h
      have hd0 : d < 0 := by
        by_contra hd
        have hd' : (0 : ℝ) ≤ (d : ℝ) := by exact_mod_cast not_lt.mp hd
        linarith
      refine ⟨hd0, ?_⟩
      have hd' : (d : ℝ) < 0 := by exact_mod_cast hd0
      have h3 : (-((e : ℝ) * Real.sqrt ((v : ℚ) : ℝ))) ^ 2 < (-(d : ℝ)) ^ 2 :=
        pow_lt_pow_left₀ (by linarith) (by linarith) two_ne_zero
      have h2 : ((e : ℝ) * Real.sqrt ((v : ℚ) : ℝ)) ^ 2 < (d : ℝ) ^ 2 := by
        simpa using h3
      rw [mul_pow, hs2] at h2
      exact_mod_cast h2

theorem divSqrtGt_iff (d v e : ℚ) (hv : 0 < v) :
    divSqrtGt d v e = true ↔ (e : ℝ) < (d : ℝ) / Real.sqrt ((v : ℚ) : ℝ) := by
  have hv' : (0 : ℝ) < ((v : ℚ) : ℝ) := by exact_mod_cast hv
  have hs : 0 < Real.sqrt ((v : ℚ) : ℝ) := Real.sqrt_pos.mpr hv'
  have hs2 : Real.sqrt ((v : ℚ) : ℝ) ^ 2 = ((v : ℚ) : ℝ) := Real.sq_sqrt hv'.le
  rw [lt_div_iff₀ hs]
  unfold divSqrtGt
  by_cases he : e < 0
  · have he' : (e : ℝ) < 0 := by exact_mod_cast he
    have hes : (e : ℝ) * Real.sqrt ((v : ℚ) : ℝ) < 0 := mul_neg_of_neg_of_pos he' hs
    rw [if_pos he, Bool.or_eq_true, decide_eq_true_eq, decide_eq_true_eq]
    constructor
    · rintro (hd | hq)
      · have hd' : (0 : ℝ) ≤ (d : ℝ) := by exact_mod_cast hd
        linarith
      · by_cases hd : d < 0
        · have hd' : (d : ℝ) < 0 := by exact_mod_cast hd
          have h2 : (d : ℝ) ^ 2 < ((e : ℝ) * Real.sqrt ((v : ℚ) : ℝ)) ^ 2 := by
            rw [mul_pow, hs2]
            exact_mod_cast hq
          have h3 : (-(d : ℝ)) ^ 2 < (-((e : ℝ) * Real.sqrt ((v : ℚ) : ℝ))) ^ 2 := by
            simpa using h2
          have h4 := lt_of_pow_lt_pow_left₀ 2
            (by linarith : (0 : ℝ) ≤ -((e : ℝ) * Real.sqrt ((v : ℚ) : ℝ))) h3
          linarith
        · have hd' : (0 : ℝ) ≤ (d : ℝ) := by exact_mod_cast not_lt.mp hd
          linarith
    · intro h
      by_cases hd : 0 ≤ d
      · exact Or.inl hd
      · right
        have hd' : (d : ℝ) < 0 := by exact_mod_cast not_le.mp hd
        have h3 : (-(d : ℝ)) ^ 2 < (-((e : ℝ) * Real.sqrt ((v : ℚ) : ℝ))) ^ 2 :=
          pow_lt_pow_left₀ (by linarith) (by linarith) two_ne_zero
        have h2 : (d : ℝ) ^ 2 < ((e : ℝ) * Real.sqrt ((v : ℚ) : ℝ)) ^ 2 := by
          simpa using h3
        rw [mul_pow, hs2] at h2
        exact_mod_cast h2
  · have he' : (0 : ℝ) ≤ (e : ℝ) := by exact_mod_cast not_lt.mp he
    have hes : (0 : ℝ) ≤ (e : ℝ) * Real.sqrt ((v : ℚ) : ℝ) := mul_nonneg he' hs.le
    rw [if_neg he, Bool.and_eq_true, decide_eq_true_eq, decide_eq_true_eq]
    constructor
    · rintro ⟨hd, hq⟩
      have hd' : (0 : ℝ) < (d : ℝ) := by exact_mod_cast hd
      have h2 : ((e : ℝ) * Real.sqrt ((v : ℚ) : ℝ)) ^ 2 < (d : ℝ) ^ 2 := by
        rw [mul_pow, hs2]
        exact_mod_cast hq
      exact lt_of_pow_lt_pow_left₀ 2 hd'.le h2
    · intro h
      have hd0 : 0 < d := by
        by_contra hd
        have hd' : (d : ℝ) ≤ 0 := by exact_mod_cast not_lt.mp hd
        linarith
      refine ⟨hd0, ?_⟩
      have h2 : ((e : ℝ) * Real.sqrt ((v : ℚ) : ℝ)) ^ 2 < (d : ℝ) ^ 2 :=
        pow_lt_pow_left₀ h hes two_ne_zero
      rw [mul_pow, hs2] at h2
      exact_mod_cast h2

theorem sum_sq_nonneg (l : List ℚ) (m : ℚ) :
    0 ≤ (l.map (fun x => (x - m) ^ 2)).sum := by
  apply List.sum_nonneg
  intro x hx
  obtain ⟨y, _, rfl⟩ := List.mem_map.mp hx
  positivity

theorem sum_sq_eq_zero (l : List ℚ) (m : ℚ)
    (h : (l.map (fun x => (x - m) ^ 2)).sum = 0) : ∀ x ∈ l, x = m := by
  induction l with
  | nil => simp
  | cons a rest ih =>
    simp only [List.map_cons, List.sum_cons] at h
    have h1 : 0 ≤ (a - m) ^ 2 := sq_nonneg _
    have h2 : 0 ≤ (rest.map (fun x => (x - m) ^ 2)).sum := sum_sq_nonneg rest m
    have ha : (a - m) ^ 2 = 0 := by linarith
    have hr : (rest.map (fun x => (x - m) ^ 2)).sum = 0 := by linarith
    intro x hx
    rcases List.mem_cons.mp hx with rfl | hx'
    · have := pow_eq_zero_iff two_ne_zero |>.mp ha
      linarith [sub_eq_zero.mp this]
    · exact ih hr x hx'

theorem sampleVar_pos (l : List ℚ) (w : ℕ) (hw : 2 ≤ w)
    (hne : ∃ a ∈ lastN l w, ∃ b ∈ lastN l w, a ≠ b) :
    0 < sampleVar l w := by
  obtain ⟨a, ha, b, hb, hab⟩ := hne
  unfold sampleVar
  apply div_pos
  · rcases lt_or_eq_of_le (sum_sq_nonneg (lastN l w) (rmean l w)) with h | h
    · exact h
    · exact absurd ((sum_sq_eq_zero _ _ h.symm a ha).trans
        (sum_sq_eq_zero _ _ h.symm b hb).symm) hab
  · have : (2 : ℚ) ≤ (w : ℚ) := by exact_mod_cast hw
    linarith

/-- C6 (amended): for a history of at least `w ≥ 2` bars whose last-`w`
closes are not all equal, `MeanReversion.on_data` decides its orders by
the z-score `(today's close − rolling mean) / rolling standard deviation`
where the standard deviation is the **sample** standard deviation (pandas
`rolling(w).std()`, `ddof = 1`, divisor `w − 1`) — not the population one:
`z < entry_z` while flat emits exactly one BUY and sets the flag,
`z > exit_z` while in position emits exactly one SELL and clears it,
anything else emits nothing; and whenever the standard deviation of the
last `w` closes is zero it emits no orders. -/
theorem mean_reversion_zscore (s : MeanReversion) (history : List Bar)
    (hlen : s.lookback ≤ history.length) (hw : 2 ≤ s.lookback)
    (hne : ∃ a ∈ lastN (history.map Bar.close) s.lookback,
           ∃ b ∈ lastN (history.map Bar.close) s.lookback, a ≠ b) :
    (zscore (history.map Bar.close) s.lookback < (s.entry_z : ℝ) ∧ s.in_position = false →
      s.on_data history = ([⟨s.ticker, "BUY", s.quantity⟩], { s with in_position := true }))
    ∧ ((s.exit_z : ℝ) < zscore (history.map Bar.close) s.lookback ∧ s.in_position = true →
      s.on_data history = ([⟨s.ticker, "SELL", s.quantity⟩], { s with in_position := false }))
    ∧ (¬(zscore (history.map Bar.close) s.lookback < (s.entry_z : ℝ) ∧
          s.in_position = false) →
       ¬((s.exit_z : ℝ) < zscore (history.map Bar.close) s.lookback ∧
          s.in_position = true) →
      s.on_data history = ([], s))
    ∧ (∀ history' : List Bar, s.lookback ≤ history'.length →
        sampleVar (history'.map Bar.close) s.lookback = 0 →
        s.on_data history' = ([], s)) := by
  have hguard : ¬ history.length < s.lookback := not_lt.mpr hlen
  have hv : 0 < sampleVar (history.map Bar.close) s.lookback := sampleVar_pos _ _ hw hne
  have hv0 : ¬ sampleVar (history.map Bar.close) s.lookback = 0 := ne_of_gt hv
  have hlt := divSqrtLt_iff
    ((history.map Bar.close).getLast?.getD 0 - rmean (history.map Bar.close) s.lookback)
    (sampleVar (history.map Bar.close) s.lookback) s.entry_z hv
  have hgt := divSqrtGt_iff
    ((history.map Bar.close).getLast?.getD 0 - rmean (history.map Bar.close) s.lookback)
    (sampleVar (history.map Bar.close) s.lookback) s.exit_z hv
  rw [show zscore (history.map Bar.close) s.lookback
      = ((history.map Bar.close).getLast?.getD 0
          - rmean (history.map Bar.close) s.lookback : ℚ)
        / Real.sqrt ((sampleVar (history.map Bar.close) s.lookback : ℚ) : ℝ) from rfl]
  refine ⟨?_, ?_, ?_, ?_⟩
  · rintro ⟨hz, hpos⟩
    have hb : divSqrtLt
        ((history.map Bar.close).getLast?.getD 0 - rmean (history.map Bar.close) s.lookback)
        (sampleVar (history.map Bar.close) s.lookback) s.entry_z = true := hlt.mpr hz
    rw [List.getLast?_map] at hb
    simp [MeanReversion.on_data, hguard, hv0, hb, hpos]
  · rintro ⟨hz, hpos⟩
    have hb : divSqrtGt
        ((history.map Bar.close).getLast?.getD 0 - rmean (history.map Bar.close) s.lookback)
        (sampleVar (history.map Bar.close) s.lookback) s.exit_z = true := hgt.mpr hz
    rw [List.getLast?_map] at hb
    simp [MeanReversion.on_data, hguard, hv0, hb, hpos]
  · intro h1 h2
    by_cases hp : s.in_position
    · have hgf : divSqrtGt
          ((history.map Bar.close).getLast?.getD 0 - rmean (history.map Bar.close) s.lookback)
          (sampleVar (history.map Bar.close) s.lookback) s.exit_z = false := by
        cases hB : divSqrtGt
            ((history.map Bar.close).getLast?.getD 0
              - rmean (history.map Bar.close) s.lookback)
            (sampleVar (history.map Bar.close) s.lookback) s.exit_z
        · rfl
        · exact absurd ⟨hgt.mp hB, hp⟩ h2
      rw [List.getLast?_map] at hgf
      simp [MeanReversion.on_data, hguard, hv0, hp, hgf]
    · have hlf : divSqrtLt
          ((history.map Bar.close).getLast?.getD 0 - rmean (history.map Bar.close) s.lookback)
          (sampleVar (history.map Bar.close) s.lookback) s.entry_z = false := by
        cases hB : divSqrtLt
            ((history.map Bar.close).getLast?.getD 0
              - rmean (history.map Bar.close) s.lookback)
            (sampleVar (history.map Bar.close) s.lookback) s.entry_z
        · rfl
        · exact absurd ⟨hlt.mp hB, by simpa using hp⟩ h1
      rw [List.getLast?_map] at hlf
      simp [MeanReversion.on_data, hguard, hv0, hp, hlf]
  · intro history' hlen' hzero
    simp [MeanReversion.on_data, not_lt.mpr hlen', hzero]

theorem half_lt_sqrt_half : (1 / 2 : ℝ) < Real.sqrt (1 / 2) :=
  (Real.lt_sqrt (by norm_num)).mpr (by norm_num)

/-- C6 counterexample: pandas' `rolling(w).std()` is the sample standard
deviation (`ddof = 1`), not the population one the claim names.  On closes
`[1, 0]` with window 2, entry threshold `-9/10` and no open position: the
population z-score is `-1 < -9/10`, so by the claim's formula the strategy
would emit its BUY — yet the code emits nothing, because its z-score
`(-1/2)/√(1/2) ≈ -0.707` is above the threshold; and the two z-scores
differ outright. -/
theorem mean_reversion_zscore_counterexample :
    ((MeanReversion.mk "X" 2 (-(9/10)) 0 1 false).on_data [Bar.mk 0 1, Bar.mk 1 0]).1 = []
    ∧ (MeanReversion.mk "X" 2 (-(9/10)) 0 1 false).in_position = false
    ∧ zscorePop ([Bar.mk 0 1, Bar.mk 1 0].map Bar.close) 2 < ((-(9/10) : ℚ) : ℝ)
    ∧ sampleVar ([Bar.mk 0 1, Bar.mk 1 0].map Bar.close) 2 ≠ 0
    ∧ zscore ([Bar.mk 0 1, Bar.mk 1 0].map Bar.close) 2
        ≠ zscorePop ([Bar.mk 0 1, Bar.mk 1 0].map Bar.close) 2 := by
  have hmap : [Bar.mk 0 1, Bar.mk 1 0].map Bar.close = [1, 0] := rfl
  have hmean : rmean [1, 0] 2 = 1 / 2 := by
    norm_num [rmean, lastN]
  have hsv : sampleVar ([1, 0] : List ℚ) 2 = 1 / 2 := by
    norm_num [sampleVar, rmean, lastN]
  have hpv : popVar ([1, 0] : List ℚ) 2 = 1 / 4 := by
    norm_num [popVar, rmean, lastN]
  have hlast : ([1, 0] : List ℚ).getLast?.getD 0 = 0 := rfl
  have hzpop : zscorePop ([1, 0] : List ℚ) 2 = -1 := by
    rw [zscorePop, hpv, hlast, hmean]
    rw [show (((1 : ℚ) / 4 : ℚ) : ℝ) = (1 / 2 : ℝ) ^ 2 by push_cast; norm_num]
    rw [Real.sqrt_sq (by norm_num)]
    push_cast
    norm_num
  have hsqrt : Real.sqrt (((1 : ℚ) / 2 : ℚ) : ℝ) = Real.sqrt (1 / 2 : ℝ) := by
    norm_num
  have hzs : zscore ([1, 0] : List ℚ) 2 = (-(1 / 2) : ℝ) / Real.sqrt (1 / 2 : ℝ) := by
    rw [zscore, hsv, hlast, hmean, hsqrt]
    push_cast
    norm_num
  have hspos : (0 : ℝ) < Real.sqrt (1 / 2 : ℝ) := Real.sqrt_pos.mpr (by norm_num)
  have hzgt : (-1 : ℝ) < zscore ([1, 0] : List ℚ) 2 := by
    rw [hzs, lt_div_iff₀ hspos]
    linarith [half_lt_sqrt_half]
  refine ⟨?_, rfl, ?_, ?_, ?_⟩
  · norm_num [MeanReversion.on_data, sampleVar, rmean, lastN, divSqrtLt, divSqrtGt]
  · rw [hmap, hzpop]
    norm_num
  · rw [hmap, hsv]
    norm_num
  · rw [hmap, hzpop]
    exact ne_of_gt hzgt

theorem mean_reversion_zscore_witness :
    2 ≤ ([Bar.mk 0 1, Bar.mk 1 0] : List Bar).length
    ∧ (2 : ℕ) ≤ 2
    ∧ (∃ a ∈ lastN ([Bar.mk 0 1, Bar.mk 1 0].map Bar.close) 2,
       ∃ b ∈ lastN ([Bar.mk 0 1, Bar.mk 1 0].map Bar.close) 2, a ≠ b)
    ∧ (MeanReversion.mk "X" 2 (-2) (-1) 1 true).on_data [Bar.mk 0 1, Bar.mk 1 0]
        = ([Order.mk "X" "SELL" 1], MeanReversion.mk "X" 2 (-2) (-1) 1 false) := by
  have hne : ∃ a ∈ lastN ([Bar.mk 0 1, Bar.mk 1 0].map Bar.close) 2,
      ∃ b ∈ lastN ([Bar.mk 0 1, Bar.mk 1 0].map Bar.close) 2, a ≠ b := by
    refine ⟨1, ?_, 0, ?_, by norm_num⟩ <;> simp [lastN]
  have h := mean_reversion_zscore (MeanReversion.mk "X" 2 (-2) (-1) 1 true)
    [Bar.mk 0 1, Bar.mk 1 0] (by norm_num) (by norm_num) hne
  refine ⟨by norm_num, by norm_num, hne, ?_⟩
  apply h.2.1
  refine ⟨?_, rfl⟩
  have hmap : [Bar.mk 0 1, Bar.mk 1 0].map Bar.close = [1, 0] := rfl
  have hmean : rmean [1, 0] 2 = 1 / 2 := by
    norm_num [rmean, lastN]
  have hsv : sampleVar ([1, 0] : List ℚ) 2 = 1 / 2 := by
    norm_num [sampleVar, rmean, lastN]
  have hlast : ([1, 0] : List ℚ).getLast?.getD 0 = 0 := rfl
  have hsqrt : Real.sqrt (((1 : ℚ) / 2 : ℚ) : ℝ) = Real.sqrt (1 / 2 : ℝ) := by
    norm_num
  have hzs : zscore ([1, 0] : List ℚ) 2 = (-(1 / 2) : ℝ) / Real.sqrt (1 / 2 : ℝ) := by
    rw [zscore, hsv, hlast, hmean, hsqrt]
    push_cast
    norm_num
  have hspos : (0 : ℝ) < Real.sqrt (1 / 2 : ℝ) := Real.sqrt_pos.mpr (by norm_num)
  show ((-1 : ℚ) : ℝ) < zscore ([Bar.mk 0 1, Bar.mk 1 0].map Bar.close) 2
  rw [hmap, hzs]
  rw [show (((-1 : ℚ) : ℝ)) = (-1 : ℝ) by push_cast; ring]
  rw [lt_div_iff₀ hspos]
  linarith [half_lt_sqrt_half]

/-! ### C10: the in-position flag tracks the emitted signal only -/

theorem runDays_strat {σ : Type} (step : σ → List Bar → List Order × σ)
    (commission_pct : ℚ) (data : List Bar) (idxs : List ℕ) (st : RunState σ) :
    (runDays step commission_pct data idxs st).strat = stratFold step data idxs st.strat := by
  induction idxs generalizing st with
  | nil => simp [runDays, stratFold]
  | cons i rest ih =>
    simp only [runDays, stratFold]
    rw [ih]

/-- C10: for both concrete strategies the private in-position flag is set
exactly on emitting a BUY and cleared exactly on emitting a SELL, as a
function of the signal alone: a BUY is emitted only while the flag is
clear and it sets the flag; a SELL is emitted only while the flag is set
and it clears the flag; with the flag set no BUY is ever emitted; when no
order is emitted the state is unchanged.  The flag never sees whether the
Portfolio accepted the order: the strategy state a backtest run ends with
is identical under any starting capital and commission rate. -/
theorem strategy_flag_semantics (s : SMACrossover) (m : MeanReversion)
    (history : List Bar) :
    (∀ o ∈ (s.on_data history).1, o.side = "BUY" →
        s.in_position = false ∧ (s.on_data history).2.in_position = true)
    ∧ (∀ o ∈ (s.on_data history).1, o.side = "SELL" →
        s.in_position = true ∧ (s.on_data history).2.in_position = false)
    ∧ ((s.on_data history).1 = [] → (s.on_data history).2 = s)
    ∧ (s.in_position = true → ∀ o ∈ (s.on_data history).1, o.side ≠ "BUY")
    ∧ (∀ o ∈ (m.on_data history).1, o.side = "BUY" →
        m.in_position = false ∧ (m.on_data history).2.in_position = true)
    ∧ (∀ o ∈ (m.on_data history).1, o.side = "SELL" →
        m.in_position = true ∧ (m.on_data history).2.in_position = false)
    ∧ ((m.on_data history).1 = [] → (m.on_data history).2 = m)
    ∧ (m.in_position = true → ∀ o ∈ (m.on_data history).1, o.side ≠ "BUY")
    ∧ (∀ (data : List Bar) (cap₁ comm₁ cap₂ comm₂ : ℚ),
        (runBacktest SMACrossover.on_data s data cap₁ comm₁).strat
          = (runBacktest SMACrossover.on_data s data cap₂ comm₂).strat)
    ∧ (∀ (data : List Bar) (cap₁ comm₁ cap₂ comm₂ : ℚ),
        (runBacktest MeanReversion.on_data m data cap₁ comm₁).strat
          = (runBacktest MeanReversion.on_data m data cap₂ comm₂).strat) := by
  refine ⟨?_, ?_, ?_, ?_, ?_, ?_, ?_, ?_, ?_, ?_⟩
  · simp only [SMACrossover.on_data]
    split_ifs <;> simp_all
  · simp only [SMACrossover.on_data]
    split_ifs <;> simp_all
  · simp only [SMACrossover.on_data]
    split_ifs <;> simp_all
  · simp only [SMACrossover.on_data]
    split_ifs <;> simp_all
  · simp only [MeanReversion.on_data]
    split_ifs <;> simp_all
  · simp only [MeanReversion.on_data]
    split_ifs <;> simp_all
  · simp only [MeanReversion.on_data]
    split_ifs <;> simp_all
  · simp only [MeanReversion.on_data]
    split_ifs <;> simp_all
  · intro data cap₁ comm₁ cap₂ comm₂
    rw [runBacktest, runBacktest, runDays_strat, runDays_strat]
  · intro data cap₁ comm₁ cap₂ comm₂
    rw [runBacktest, runBacktest, runDays_strat, runDays_strat]

theorem strategy_flag_semantics_witness :
    Order.mk "X" "BUY" 5 ∈ ((SMACrossover.mk "X" 1 2 5 false).on_data
        [Bar.mk 0 3, Bar.mk 1 1, Bar.mk 2 5]).1
    ∧ (SMACrossover.mk "X" 1 2 5 false).in_position = false
    ∧ ((SMACrossover.mk "X" 1 2 5 false).on_data
        [Bar.mk 0 3, Bar.mk 1 1, Bar.mk 2 5]).2.in_position = true
    ∧ (runBacktest SMACrossover.on_data (SMACrossover.mk "X" 1 2 5 false)
        [Bar.mk 0 3] 100 0).strat
      = (runBacktest SMACrossover.on_data (SMACrossover.mk "X" 1 2 5 false)
        [Bar.mk 0 3] 999 (1/2)).strat := by
  have hdata : (SMACrossover.mk "X" 1 2 5 false).on_data
      [Bar.mk 0 3, Bar.mk 1 1, Bar.mk 2 5]
      = ([Order.mk "X" "BUY" 5], SMACrossover.mk "X" 1 2 5 true) := by
    norm_num [SMACrossover.on_data, rmean, lastN]
  have hmem : Order.mk "X" "BUY" 5 ∈ ((SMACrossover.mk "X" 1 2 5 false).on_data
      [Bar.mk 0 3, Bar.mk 1 1, Bar.mk 2 5]).1 := by
    rw [hdata]
    simp
  have h := strategy_flag_semantics (SMACrossover.mk "X" 1 2 5 false)
    (MeanReversion.mk "X" 2 (-2) 0 1 false) [Bar.mk 0 3, Bar.mk 1 1, Bar.mk 2 5]
  obtain ⟨hflag1, hflag2⟩ := h.1 (Order.mk "X" "BUY" 5) hmem rfl
  exact ⟨hmem, hflag1, hflag2, h.2.2.2.2.2.2.2.2.1 [Bar.mk 0 3] 100 0 999 (1/2)⟩

end Backtest
